import Mathlib

/-!
Shallow embedding of the Bitcoin legacy-transaction codec from `src/lib.rs`
(crate `rust-week-3-exercises`), together with proofs about its claims.

Modelling conventions:
* Rust byte buffers (`&[u8]`, `Vec<u8>`) are `List Nat`; a well-formedness
  predicate records the `u8` bound where a theorem needs it.
* `u16`/`u32`/`u64`/`usize` values are `Nat`; the target platform is 64-bit,
  so `usize` has width 64.  Arithmetic that Rust performs on `usize` and that
  can overflow is modelled explicitly at the one place it can (the end-index
  computation in `Script.from_bytes`).
* Every fallible decoder returns `DecodeResult α`: `Ok value consumed`
  (Rust's `Ok((value, consumed))`), `Err e` (Rust's `Err(e)`), or `Panic`,
  which marks an input on which the Rust function panics instead of
  returning (debug builds abort on the `start_index + script_len` overflow;
  release builds wrap and then abort on the out-of-order slice
  `bytes[start_index..end_index]`).  Both build modes panic on exactly the
  inputs mapped to `Panic`.
-/

/-- Little-endian byte encoding of `v` in exactly `w` bytes, as produced by
Rust's `uN::to_le_bytes` (each byte is the next base-256 digit). -/
def toLE : Nat → Nat → List Nat
  | 0, _ => []
  | w + 1, v => v % 256 :: toLE w (v / 256)

/-- Little-endian byte decoding, as performed by Rust's `uN::from_le_bytes`. -/
def fromLE : List Nat → Nat
  | [] => 0
  | b :: rest => b + 256 * fromLE rest

/-- `enum BitcoinError` from src/lib.rs. -/
inductive BitcoinError where
  | InsufficientBytes
  | InvalidFormat
deriving DecidableEq, Repr

/-- Result of a Rust decoder `fn from_bytes(&[u8]) -> Result<(Self, usize), BitcoinError>`.
`Panic` marks inputs on which the Rust code panics instead of returning. -/
inductive DecodeResult (α : Type) where
  | Ok : α → Nat → DecodeResult α
  | Err : BitcoinError → DecodeResult α
  | Panic : DecodeResult α
deriving DecidableEq, Repr

/-- `true` exactly on `Err(InvalidFormat)`. -/
def DecodeResult.isInvalidFormat : DecodeResult α → Bool
  | .Err .InvalidFormat => true
  | _ => false

/-- `struct CompactSize { value: u64 }`. -/
structure CompactSize where
  value : Nat
deriving DecidableEq, Repr

/-- `CompactSize::new`. -/
def CompactSize.new (value : Nat) : CompactSize := ⟨value⟩

/-- `CompactSize::to_bytes`: the `match self.value` with arms `0..=0xFC`,
`253..=0xFFFF`, `65536..=0xFFFFFFFF` and the catch-all (`u64` forces
`value < 2^64`, so the catch-all is `0x100000000..=u64::MAX`). -/
def CompactSize.to_bytes (self : CompactSize) : List Nat :=
  if self.value ≤ 0xFC then [self.value]
  else if self.value ≤ 0xFFFF then 0xFD :: toLE 2 self.value
  else if self.value ≤ 0xFFFFFFFF then 0xFE :: toLE 4 self.value
  else 0xFF :: toLE 8 self.value

/-- `CompactSize::from_bytes`: empty check, then dispatch on the first byte. -/
def CompactSize.from_bytes (bytes : List Nat) : DecodeResult CompactSize :=
  match bytes with
  | [] => .Err .InsufficientBytes
  | b0 :: _ =>
    if b0 = 0xFD then
      if bytes.length < 3 then .Err .InsufficientBytes
      else .Ok (CompactSize.new (fromLE ((bytes.drop 1).take 2))) 3
    else if b0 = 0xFE then
      if bytes.length < 5 then .Err .InsufficientBytes
      else .Ok (CompactSize.new (fromLE ((bytes.drop 1).take 4))) 5
    else if b0 = 0xFF then
      if bytes.length < 9 then .Err .InsufficientBytes
      else .Ok (CompactSize.new (fromLE ((bytes.drop 1).take 8))) 9
    else .Ok (CompactSize.new b0) 1

/-- `struct Txid(pub [u8; 32])`; the 32-byte array is a list plus a
well-formedness bound. -/
structure Txid where
  bytes : List Nat
deriving DecidableEq, Repr

/-- `struct OutPoint { txid: Txid, vout: u32 }`. -/
structure OutPoint where
  txid : Txid
  vout : Nat
deriving DecidableEq, Repr

/-- `OutPoint::new`. -/
def OutPoint.new (txid : List Nat) (vout : Nat) : OutPoint := ⟨⟨txid⟩, vout⟩

/-- `OutPoint::to_bytes`: 32 raw txid bytes then `vout` little-endian. -/
def OutPoint.to_bytes (self : OutPoint) : List Nat :=
  self.txid.bytes ++ toLE 4 self.vout

/-- `OutPoint::from_bytes`. -/
def OutPoint.from_bytes (bytes : List Nat) : DecodeResult OutPoint :=
  if bytes.length < 36 then .Err .InsufficientBytes
  else .Ok (OutPoint.new (bytes.take 32) (fromLE ((bytes.drop 32).take 4))) 36

/-- `struct Script { bytes: Vec<u8> }`. -/
structure Script where
  bytes : List Nat
deriving DecidableEq, Repr

/-- `Script::new`. -/
def Script.new (bytes : List Nat) : Script := ⟨bytes⟩

/-- `Script::to_bytes`: CompactSize length prefix, then the raw bytes. -/
def Script.to_bytes (self : Script) : List Nat :=
  CompactSize.to_bytes (CompactSize.new self.bytes.length) ++ self.bytes

/-- `Script::from_bytes`.  The Rust source computes
`end_index = start_index + script_len` in `usize`; when that sum reaches
`2^64` the Rust code panics (overflow abort in debug, wrapped index followed
by an out-of-order slice panic in release), modelled by `Panic`. -/
def Script.from_bytes (bytes : List Nat) : DecodeResult Script :=
  match CompactSize.from_bytes bytes with
  | .Err e => .Err e
  | .Panic => .Panic
  | .Ok compact_size compact_size_len =>
    let script_len := compact_size.value
    let start_index := compact_size_len
    if 2 ^ 64 ≤ start_index + script_len then .Panic
    else
      let end_index := start_index + script_len
      if bytes.length < end_index then .Err .InsufficientBytes
      else .Ok (Script.new ((bytes.drop start_index).take script_len)) end_index

/-- `struct TransactionInput`. -/
structure TransactionInput where
  previous_output : OutPoint
  script_sig : Script
  sequence : Nat
deriving DecidableEq, Repr

/-- `TransactionInput::new`. -/
def TransactionInput.new (previous_output : OutPoint) (script_sig : Script)
    (sequence : Nat) : TransactionInput :=
  ⟨previous_output, script_sig, sequence⟩

/-- `TransactionInput::to_bytes`. -/
def TransactionInput.to_bytes (self : TransactionInput) : List Nat :=
  self.previous_output.to_bytes ++ self.script_sig.to_bytes ++ toLE 4 self.sequence

/-- `TransactionInput::from_bytes`. -/
def TransactionInput.from_bytes (bytes : List Nat) : DecodeResult TransactionInput :=
  match OutPoint.from_bytes bytes with
  | .Err e => .Err e
  | .Panic => .Panic
  | .Ok previous_output outpoint_len =>
    match Script.from_bytes (bytes.drop outpoint_len) with
    | .Err e => .Err e
    | .Panic => .Panic
    | .Ok script_sig script_len =>
      let sequence_start := outpoint_len + script_len
      let sequence_end := sequence_start + 4
      if bytes.length < sequence_end then .Err .InsufficientBytes
      else
        .Ok (TransactionInput.new previous_output script_sig
              (fromLE ((bytes.drop sequence_start).take 4))) sequence_end

/-- `struct BitcoinTransaction`. -/
structure BitcoinTransaction where
  version : Nat
  inputs : List TransactionInput
  lock_time : Nat
deriving DecidableEq, Repr

/-- `BitcoinTransaction::new`. -/
def BitcoinTransaction.new (version : Nat) (inputs : List TransactionInput)
    (lock_time : Nat) : BitcoinTransaction :=
  ⟨version, inputs, lock_time⟩

/-- `BitcoinTransaction::to_bytes`. -/
def BitcoinTransaction.to_bytes (self : BitcoinTransaction) : List Nat :=
  toLE 4 self.version
    ++ CompactSize.to_bytes (CompactSize.new self.inputs.length)
    ++ self.inputs.flatMap TransactionInput.to_bytes
    ++ toLE 4 self.lock_time

/-- The `for _ in 0..input_count` loop of `BitcoinTransaction::from_bytes`:
decode `count` inputs in sequence, each starting where the previous ended,
returning the inputs and the total bytes they consumed. -/
def decodeInputs : Nat → List Nat → DecodeResult (List TransactionInput)
  | 0, _ => .Ok [] 0
  | count + 1, bytes =>
    match TransactionInput.from_bytes bytes with
    | .Err e => .Err e
    | .Panic => .Panic
    | .Ok input input_len =>
      match decodeInputs count (bytes.drop input_len) with
      | .Err e => .Err e
      | .Panic => .Panic
      | .Ok rest rest_len => .Ok (input :: rest) (input_len + rest_len)

/-- `BitcoinTransaction::from_bytes`. -/
def BitcoinTransaction.from_bytes (bytes : List Nat) : DecodeResult BitcoinTransaction :=
  if bytes.length < 4 then .Err .InsufficientBytes
  else
    let version := fromLE (bytes.take 4)
    match CompactSize.from_bytes (bytes.drop 4) with
    | .Err e => .Err e
    | .Panic => .Panic
    | .Ok input_count_compact_size compact_size_len =>
      match decodeInputs input_count_compact_size.value
          (bytes.drop (4 + compact_size_len)) with
      | .Err e => .Err e
      | .Panic => .Panic
      | .Ok inputs inputs_len =>
        let offset := 4 + compact_size_len + inputs_len
        if bytes.length < offset + 4 then .Err .InsufficientBytes
        else
          .Ok (BitcoinTransaction.new version inputs
                (fromLE ((bytes.drop offset).take 4))) (offset + 4)

/-- Rust type invariants of a `Txid` value: exactly 32 bytes, each a `u8`. -/
def wfTxid (t : Txid) : Prop :=
  t.bytes.length = 32 ∧ ∀ b ∈ t.bytes, b < 256

/-- Rust type invariants of an `OutPoint` value. -/
def wfOutPoint (p : OutPoint) : Prop :=
  wfTxid p.txid ∧ p.vout < 2 ^ 32

/-- Rust type invariants of a `Script` value: `u8` entries, and a `Vec`
length (bounded by `isize::MAX` on a 64-bit platform). -/
def wfScript (s : Script) : Prop :=
  s.bytes.length ≤ 2 ^ 63 - 1 ∧ ∀ b ∈ s.bytes, b < 256

/-- Rust type invariants of a `TransactionInput` value. -/
def wfInput (i : TransactionInput) : Prop :=
  wfOutPoint i.previous_output ∧ wfScript i.script_sig ∧ i.sequence < 2 ^ 32

/-- Rust type invariants of a `BitcoinTransaction` value. -/
def wfTx (t : BitcoinTransaction) : Prop :=
  t.version < 2 ^ 32 ∧ t.lock_time < 2 ^ 32 ∧
    t.inputs.length ≤ 2 ^ 63 - 1 ∧ ∀ i ∈ t.inputs, wfInput i

/-- `bytes b (decodes-to) inputs (consuming) used`: the inputs decode in
sequence from `b`, each starting where the previous one ended. -/
inductive DecodesFrom : List Nat → List TransactionInput → Nat → Prop where
  | nil (b : List Nat) : DecodesFrom b [] 0
  | cons {b : List Nat} {i : TransactionInput} {l : List TransactionInput}
      {k u : Nat} :
      TransactionInput.from_bytes b = .Ok i k →
      DecodesFrom (b.drop k) l u →
      DecodesFrom b (i :: l) (k + u)

/-- One hex digit, lowercase, as produced by Rust's `format!("{:02x}", _)`
for each nibble (`0..=9` → `'0'..='9'`, `10..=15` → `'a'..='f'`). -/
def hexDigit (d : Nat) : Char :=
  if d < 10 then Char.ofNat (48 + d) else Char.ofNat (97 + (d - 10))

/-- The two hex characters `format!("{:02x}", b)` prints for a byte `b < 256`:
high nibble first, zero-padded to width 2. -/
def byteToHexChars (b : Nat) : List Char :=
  [hexDigit (b / 16), hexDigit (b % 16)]

/-- `Txid`'s `Serialize` impl: the concatenation of `format!("{:02x}", b)`
over the 32 bytes in order (byte 0 first).  A Rust `String` is modelled as
its list of characters. -/
def Txid.serialize (self : Txid) : List Char :=
  self.bytes.flatMap byteToHexChars

/-- Value of one hex character, as accepted by the external hex utility
(digits, lowercase and uppercase letters). -/
def hexVal (c : Char) : Option Nat :=
  if 48 ≤ c.toNat ∧ c.toNat ≤ 57 then some (c.toNat - 48)
  else if 97 ≤ c.toNat ∧ c.toNat ≤ 102 then some (c.toNat - 97 + 10)
  else if 65 ≤ c.toNat ∧ c.toNat ≤ 70 then some (c.toNat - 65 + 10)
  else none

/-- Modelled from the spec: the external hex utility's decode function
(`hex::decode`, outside src/), which the spec treats as an external
collaborator.  It fails when the input "is not valid hex" — an odd number of
characters or any non-hex character — and otherwise yields one byte per
character pair. -/
def hexDecode : List Char → Option (List Nat)
  | [] => some []
  | [_] => none
  | c1 :: c2 :: rest =>
    match hexVal c1, hexVal c2, hexDecode rest with
    | some hi, some lo, some bs => some ((16 * hi + lo) :: bs)
    | _, _, _ => none

/-- Errors of `Txid`'s textual `Deserialize` impl (serde reports both as
custom format errors; the two cases in the source are kept apart). -/
inductive TxidParseError where
  | InvalidHex
  | InvalidLength
deriving DecidableEq, Repr

/-- `Txid`'s `Deserialize` impl: `hex::decode` the string, then require
exactly 32 bytes. -/
def Txid.deserialize (s : List Char) : Except TxidParseError Txid :=
  match hexDecode s with
  | none => .error .InvalidHex
  | some bytes =>
    if bytes.length ≠ 32 then .error .InvalidLength
    else .ok ⟨bytes⟩

instance (t : Txid) : Decidable (wfTxid t) := by unfold wfTxid; infer_instance
instance (p : OutPoint) : Decidable (wfOutPoint p) := by unfold wfOutPoint; infer_instance
instance (s : Script) : Decidable (wfScript s) := by unfold wfScript; infer_instance
instance (i : TransactionInput) : Decidable (wfInput i) := by unfold wfInput; infer_instance
instance (t : BitcoinTransaction) : Decidable (wfTx t) := by unfold wfTx; infer_instance

theorem toLE_length (w v : Nat) : (toLE w v).length = w := by
  induction w generalizing v with
  | zero => rfl
  | succ w ih => simp [toLE, ih]

theorem fromLE_toLE (w v : Nat) : fromLE (toLE w v) = v % 256 ^ w := by
  induction w generalizing v with
  | zero => simp [toLE, fromLE, Nat.mod_one]
  | succ w ih =>
    show v % 256 + 256 * fromLE (toLE w (v / 256)) = _
    rw [ih, pow_succ', Nat.mod_mul]

theorem fromLE_toLE_of_lt {w v : Nat} (h : v < 256 ^ w) : fromLE (toLE w v) = v := by
  rw [fromLE_toLE, Nat.mod_eq_of_lt h]

theorem toLE_append_take (w v : Nat) (rest : List Nat) :
    (toLE w v ++ rest).take w = toLE w v :=
  List.take_left' (toLE_length w v)

theorem toLE_append_drop (w v : Nat) (rest : List Nat) :
    (toLE w v ++ rest).drop w = rest :=
  List.drop_left' (toLE_length w v)

theorem cs_to_bytes_length_le (v : Nat) :
    (CompactSize.to_bytes ⟨v⟩).length ≤ 9 := by
  unfold CompactSize.to_bytes
  split_ifs <;> simp [toLE_length]

theorem cs_encode_decode (v : Nat) (hv : v < 2 ^ 64) (rest : List Nat) :
    CompactSize.from_bytes (CompactSize.to_bytes ⟨v⟩ ++ rest) =
      .Ok ⟨v⟩ (CompactSize.to_bytes ⟨v⟩).length := by
  have p2 : (256 : Nat) ^ 2 = 65536 := by norm_num
  have p4 : (256 : Nat) ^ 4 = 4294967296 := by norm_num
  have p8 : (256 : Nat) ^ 8 = 18446744073709551616 := by norm_num
  have q64 : (2 : Nat) ^ 64 = 18446744073709551616 := by norm_num
  unfold CompactSize.to_bytes
  dsimp only
  split_ifs with h1 h2 h3
  · rw [List.singleton_append]
    simp only [CompactSize.from_bytes]
    rw [if_neg (by omega), if_neg (by omega), if_neg (by omega)]
    rfl
  · rw [List.cons_append]
    simp only [CompactSize.from_bytes]
    rw [if_pos trivial, if_neg (by simp [toLE_length])]
    have hdrop : List.drop 1 (253 :: (toLE 2 v ++ rest)) = toLE 2 v ++ rest := rfl
    rw [hdrop, toLE_append_take, fromLE_toLE_of_lt (by omega)]
    simp [CompactSize.new, toLE_length]
  · rw [List.cons_append]
    simp only [CompactSize.from_bytes]
    rw [if_pos trivial, if_neg (by simp [toLE_length])]
    have hdrop : List.drop 1 (254 :: (toLE 4 v ++ rest)) = toLE 4 v ++ rest := rfl
    rw [hdrop, toLE_append_take, fromLE_toLE_of_lt (by omega)]
    simp [CompactSize.new, toLE_length]
  · rw [List.cons_append]
    simp only [CompactSize.from_bytes]
    rw [if_pos trivial, if_neg (by simp [toLE_length])]
    have hdrop : List.drop 1 (255 :: (toLE 8 v ++ rest)) = toLE 8 v ++ rest := rfl
    rw [hdrop, toLE_append_take, fromLE_toLE_of_lt (by omega)]
    simp [CompactSize.new, toLE_length]

theorem append_drop_index {α : Type} {l₁ l₂ : List α} {n k : Nat}
    (h : l₁.length = n) : (l₁ ++ l₂).drop (n + k) = l₂.drop k := by
  subst h; exact List.drop_append k

theorem cs_decode_ext {b s : List Nat} {c : CompactSize} {n : Nat}
    (h : CompactSize.from_bytes b = .Ok c n) :
    n ≤ b.length ∧ CompactSize.from_bytes (b ++ s) = .Ok c n := by
  match b with
  | [] => exact absurd h (by simp [CompactSize.from_bytes])
  | b0 :: tl =>
    rw [List.cons_append]
    simp only [CompactSize.from_bytes] at h ⊢
    by_cases h0 : b0 = 253
    · rw [if_pos h0] at h ⊢
      by_cases hlen : (b0 :: tl).length < 3
      · rw [if_pos hlen] at h; cases h
      · rw [if_neg hlen] at h
        injection h with hc hn
        simp only [List.length_cons] at hlen
        have htl : 2 ≤ tl.length := by omega
        refine ⟨by simp; omega, ?_⟩
        rw [if_neg (by simp; omega)]
        have hd : List.drop 1 (b0 :: (tl ++ s)) = tl ++ s := rfl
        have hd' : List.drop 1 (b0 :: tl) = tl := rfl
        rw [hd, List.take_append_of_le_length htl, ← hd', hc, hn]
    · rw [if_neg h0] at h ⊢
      by_cases h1 : b0 = 254
      · rw [if_pos h1] at h ⊢
        by_cases hlen : (b0 :: tl).length < 5
        · rw [if_pos hlen] at h; cases h
        · rw [if_neg hlen] at h
          injection h with hc hn
          simp only [List.length_cons] at hlen
          have htl : 4 ≤ tl.length := by omega
          refine ⟨by simp; omega, ?_⟩
          rw [if_neg (by simp; omega)]
          have hd : List.drop 1 (b0 :: (tl ++ s)) = tl ++ s := rfl
          have hd' : List.drop 1 (b0 :: tl) = tl := rfl
          rw [hd, List.take_append_of_le_length htl, ← hd', hc, hn]
      · rw [if_neg h1] at h ⊢
        by_cases h2 : b0 = 255
        · rw [if_pos h2] at h ⊢
          by_cases hlen : (b0 :: tl).length < 9
          · rw [if_pos hlen] at h; cases h
          · rw [if_neg hlen] at h
            injection h with hc hn
            simp only [List.length_cons] at hlen
            have htl : 8 ≤ tl.length := by omega
            refine ⟨by simp; omega, ?_⟩
            rw [if_neg (by simp; omega)]
            have hd : List.drop 1 (b0 :: (tl ++ s)) = tl ++ s := rfl
            have hd' : List.drop 1 (b0 :: tl) = tl := rfl
            rw [hd, List.take_append_of_le_length htl, ← hd', hc, hn]
        · rw [if_neg h2] at h ⊢
          injection h with hc hn
          exact ⟨by simp; omega, by rw [hc, hn]⟩

theorem cs_cases (b : List Nat) :
    (∃ c n, CompactSize.from_bytes b = .Ok c n) ∨
      CompactSize.from_bytes b = .Err .InsufficientBytes := by
  match b with
  | [] => right; rfl
  | b0 :: tl =>
    simp only [CompactSize.from_bytes]
    split_ifs <;> first | (right; rfl) | (left; exact ⟨_, _, rfl⟩)

theorem script_encode_decode (s : Script) (h : wfScript s) (rest : List Nat) :
    Script.from_bytes (s.to_bytes ++ rest) = .Ok s s.to_bytes.length := by
  obtain ⟨hlen, -⟩ := h
  have h63 : (2 : Nat) ^ 63 - 1 < 2 ^ 64 := by norm_num
  have hv : s.bytes.length < 2 ^ 64 := by omega
  have hW := cs_to_bytes_length_le s.bytes.length
  have hq : (9 : Nat) + (2 ^ 63 - 1) < 2 ^ 64 := by norm_num
  unfold Script.to_bytes CompactSize.new
  rw [List.append_assoc]
  unfold Script.from_bytes
  rw [cs_encode_decode s.bytes.length hv (s.bytes ++ rest)]
  dsimp only
  rw [if_neg (by omega), if_neg (by simp), List.drop_left, List.take_left]
  have : Script.new s.bytes = s := rfl
  rw [this]
  simp [List.length_append]

theorem script_decode_ext {b s : List Nat} {sc : Script} {n : Nat}
    (h : Script.from_bytes b = .Ok sc n) :
    n ≤ b.length ∧ Script.from_bytes (b ++ s) = .Ok sc n := by
  unfold Script.from_bytes at h ⊢
  cases hcs : CompactSize.from_bytes b with
  | Err e => rw [hcs] at h; cases h
  | Panic => rw [hcs] at h; cases h
  | Ok c W =>
    obtain ⟨hWle, hext⟩ := cs_decode_ext (s := s) hcs
    rw [hcs] at h
    rw [hext]
    dsimp only at h ⊢
    split_ifs at h with hov hlen
    cases h
    refine ⟨by omega, ?_⟩
    rw [if_neg hov, if_neg (by simp; omega), List.drop_append_of_le_length hWle,
      List.take_append_of_le_length (by simp; omega)]

theorem outpoint_encode_decode (p : OutPoint) (h : wfOutPoint p) (rest : List Nat) :
    OutPoint.from_bytes (p.to_bytes ++ rest) = .Ok p 36 := by
  obtain ⟨⟨h32, -⟩, hv⟩ := h
  have p4 : (256 : Nat) ^ 4 = 4294967296 := by norm_num
  have q32 : (2 : Nat) ^ 32 = 4294967296 := by norm_num
  unfold OutPoint.to_bytes OutPoint.from_bytes
  rw [List.append_assoc]
  rw [if_neg (by simp [h32, toLE_length]; omega)]
  rw [List.take_append_of_le_length (by omega), List.take_of_length_le (by omega),
    List.drop_left' h32, toLE_append_take, fromLE_toLE_of_lt (by omega)]
  rfl

theorem outpoint_to_bytes_length (p : OutPoint) (h32 : p.txid.bytes.length = 32) :
    p.to_bytes.length = 36 := by
  unfold OutPoint.to_bytes; simp [toLE_length, h32]

theorem outpoint_decode_ext {b s : List Nat} {p : OutPoint} {n : Nat}
    (h : OutPoint.from_bytes b = .Ok p n) :
    n ≤ b.length ∧ OutPoint.from_bytes (b ++ s) = .Ok p n := by
  unfold OutPoint.from_bytes at h ⊢
  by_cases hlen : b.length < 36
  · rw [if_pos hlen] at h; cases h
  · rw [if_neg hlen] at h
    injection h with hp hn
    refine ⟨by omega, ?_⟩
    rw [if_neg (by simp; omega),
      List.take_append_of_le_length (by omega),
      List.drop_append_of_le_length (by omega),
      List.take_append_of_le_length (by simp; omega), hp, hn]

theorem input_encode_decode (i : TransactionInput) (h : wfInput i) (rest : List Nat) :
    TransactionInput.from_bytes (i.to_bytes ++ rest) = .Ok i i.to_bytes.length := by
  obtain ⟨hop, hsc, hseq⟩ := h
  have hoplen : i.previous_output.to_bytes.length = 36 :=
    outpoint_to_bytes_length _ hop.1.1
  have p4 : (256 : Nat) ^ 4 = 4294967296 := by norm_num
  have q32 : (2 : Nat) ^ 32 = 4294967296 := by norm_num
  have hlen_i : i.to_bytes.length = 36 + i.script_sig.to_bytes.length + 4 := by
    unfold TransactionInput.to_bytes
    simp [List.length_append, hoplen, toLE_length]
    omega
  rw [hlen_i]
  simp only [TransactionInput.to_bytes]
  rw [List.append_assoc, List.append_assoc]
  unfold TransactionInput.from_bytes
  rw [outpoint_encode_decode _ hop _]
  dsimp only
  rw [List.drop_left' hoplen]
  rw [script_encode_decode _ ⟨hsc.1, hsc.2⟩ _]
  dsimp only
  rw [if_neg (by simp [hoplen, toLE_length]; omega)]
  rw [append_drop_index (k := i.script_sig.to_bytes.length) hoplen, List.drop_left,
    toLE_append_take, fromLE_toLE_of_lt (by omega)]
  rfl

theorem input_decode_ext {b s : List Nat} {i : TransactionInput} {n : Nat}
    (h : TransactionInput.from_bytes b = .Ok i n) :
    n ≤ b.length ∧ TransactionInput.from_bytes (b ++ s) = .Ok i n := by
  unfold TransactionInput.from_bytes at h ⊢
  cases hop : OutPoint.from_bytes b with
  | Err e => rw [hop] at h; cases h
  | Panic => rw [hop] at h; cases h
  | Ok p k =>
    obtain ⟨hkle, hopext⟩ := outpoint_decode_ext (s := s) hop
    rw [hop] at h
    rw [hopext]
    dsimp only at h ⊢
    cases hsc : Script.from_bytes (b.drop k) with
    | Err e => rw [hsc] at h; cases h
    | Panic => rw [hsc] at h; cases h
    | Ok sc m =>
      obtain ⟨hmle, hscext⟩ := script_decode_ext (s := s) hsc
      have hmle' : m ≤ b.length - k := by simpa using hmle
      rw [hsc] at h
      rw [List.drop_append_of_le_length hkle, hscext]
      dsimp only at h ⊢
      split_ifs at h with hlen
      cases h
      refine ⟨by omega, ?_⟩
      rw [if_neg (by simp; omega), List.drop_append_of_le_length (by omega),
        List.take_append_of_le_length (by simp; omega)]

theorem inputs_decode_ext {cnt : Nat} {b s : List Nat}
    {l : List TransactionInput} {u : Nat}
    (h : decodeInputs cnt b = .Ok l u) :
    u ≤ b.length ∧ l.length = cnt ∧ decodeInputs cnt (b ++ s) = .Ok l u := by
  induction cnt generalizing b l u with
  | zero =>
    simp only [decodeInputs] at h
    cases h
    simp [decodeInputs]
  | succ cnt ih =>
    simp only [decodeInputs] at h ⊢
    cases hi : TransactionInput.from_bytes b with
    | Err e => rw [hi] at h; cases h
    | Panic => rw [hi] at h; cases h
    | Ok i k =>
      obtain ⟨hkle, hiext⟩ := input_decode_ext (s := s) hi
      rw [hi] at h
      rw [hiext]
      dsimp only at h ⊢
      cases hrest : decodeInputs cnt (b.drop k) with
      | Err e => rw [hrest] at h; cases h
      | Panic => rw [hrest] at h; cases h
      | Ok rl ru =>
        obtain ⟨hrule, hrlen, hrext⟩ := ih hrest
        have hrule' : ru ≤ b.length - k := by simpa using hrule
        rw [hrest] at h
        cases h
        refine ⟨by omega, by simp [hrlen], ?_⟩
        rw [List.drop_append_of_le_length hkle, hrext]

theorem inputs_decodes_from {cnt : Nat} {b : List Nat}
    {l : List TransactionInput} {u : Nat}
    (h : decodeInputs cnt b = .Ok l u) : DecodesFrom b l u := by
  induction cnt generalizing b l u with
  | zero =>
    simp only [decodeInputs] at h
    cases h
    exact .nil b
  | succ cnt ih =>
    simp only [decodeInputs] at h
    cases hi : TransactionInput.from_bytes b with
    | Err e => rw [hi] at h; cases h
    | Panic => rw [hi] at h; cases h
    | Ok i k =>
      rw [hi] at h
      dsimp only at h
      cases hrest : decodeInputs cnt (b.drop k) with
      | Err e => rw [hrest] at h; cases h
      | Panic => rw [hrest] at h; cases h
      | Ok rl ru =>
        rw [hrest] at h
        cases h
        exact .cons hi (ih hrest)

theorem inputs_err_head {b : List Nat} {e : BitcoinError} {n : Nat}
    (h : TransactionInput.from_bytes b = .Err e) (hn : 0 < n) :
    decodeInputs n b = .Err e := by
  cases n with
  | zero => exact absurd hn (by omega)
  | succ n => simp only [decodeInputs]; rw [h]

theorem inputs_encode_decode (l : List TransactionInput)
    (h : ∀ i ∈ l, wfInput i) (rest : List Nat) :
    decodeInputs l.length (l.flatMap TransactionInput.to_bytes ++ rest) =
      .Ok l (l.flatMap TransactionInput.to_bytes).length := by
  induction l generalizing rest with
  | nil => simp [decodeInputs]
  | cons i tl ih =>
    simp only [List.flatMap_cons, List.length_cons, decodeInputs]
    rw [List.append_assoc, input_encode_decode i (h i (by simp)) _]
    dsimp only
    rw [List.drop_left]
    rw [ih (fun j hj => h j (by simp [hj])) rest]
    simp [List.length_append]

theorem tx_encode_decode (t : BitcoinTransaction) (h : wfTx t) (rest : List Nat) :
    BitcoinTransaction.from_bytes (t.to_bytes ++ rest) = .Ok t t.to_bytes.length := by
  obtain ⟨hver, hlock, hcnt, hins⟩ := h
  have q32 : (2 : Nat) ^ 32 = 4294967296 := by norm_num
  have q64 : (2 : Nat) ^ 64 = 18446744073709551616 := by norm_num
  have h63 : (2 : Nat) ^ 63 - 1 < 2 ^ 64 := by norm_num
  have p4 : (256 : Nat) ^ 4 = 4294967296 := by norm_num
  have hcnt64 : t.inputs.length < 2 ^ 64 := by omega
  have hlen_t : t.to_bytes.length =
      4 + (CompactSize.to_bytes ⟨t.inputs.length⟩).length +
        (t.inputs.flatMap TransactionInput.to_bytes).length + 4 := by
    unfold BitcoinTransaction.to_bytes CompactSize.new
    simp [List.length_append, toLE_length]
    omega
  rw [hlen_t]
  simp only [BitcoinTransaction.to_bytes, CompactSize.new]
  rw [List.append_assoc, List.append_assoc, List.append_assoc]
  unfold BitcoinTransaction.from_bytes
  rw [if_neg (by simp [toLE_length])]
  rw [toLE_append_take, fromLE_toLE_of_lt (by omega), toLE_append_drop]
  rw [cs_encode_decode t.inputs.length hcnt64 _]
  dsimp only
  rw [append_drop_index (toLE_length 4 t.version), List.drop_left]
  rw [inputs_encode_decode t.inputs hins (toLE 4 t.lock_time ++ rest)]
  dsimp only
  rw [if_neg (by simp [toLE_length]; omega)]
  rw [Nat.add_assoc, append_drop_index (toLE_length 4 t.version),
    append_drop_index rfl, List.drop_left, toLE_append_take,
    fromLE_toLE_of_lt (by omega)]
  rfl

theorem tx_decode_ext {b s : List Nat} {t : BitcoinTransaction} {n : Nat}
    (h : BitcoinTransaction.from_bytes b = .Ok t n) :
    n ≤ b.length ∧ BitcoinTransaction.from_bytes (b ++ s) = .Ok t n := by
  unfold BitcoinTransaction.from_bytes at h ⊢
  by_cases h4 : b.length < 4
  · rw [if_pos h4] at h; cases h
  · rw [if_neg h4] at h
    rw [if_neg (by simp; omega)]
    dsimp only at h ⊢
    cases hcs : CompactSize.from_bytes (b.drop 4) with
    | Err e => rw [hcs] at h; cases h
    | Panic => rw [hcs] at h; cases h
    | Ok c W =>
      obtain ⟨hWle, hcsext⟩ := cs_decode_ext (s := s) hcs
      have hWle' : W ≤ b.length - 4 := by simpa using hWle
      rw [hcs] at h
      rw [List.drop_append_of_le_length (by omega : 4 ≤ b.length), hcsext,
        List.take_append_of_le_length (by omega : 4 ≤ b.length)]
      dsimp only at h ⊢
      cases hdi : decodeInputs c.value (b.drop (4 + W)) with
      | Err e => rw [hdi] at h; cases h
      | Panic => rw [hdi] at h; cases h
      | Ok l u =>
        obtain ⟨hule, hllen, hdiext⟩ := inputs_decode_ext (s := s) hdi
        have hule' : u ≤ b.length - (4 + W) := by simpa using hule
        rw [hdi] at h
        rw [List.drop_append_of_le_length (by omega : 4 + W ≤ b.length), hdiext]
        dsimp only at h ⊢
        split_ifs at h with hfin
        cases h
        refine ⟨by omega, ?_⟩
        rw [if_neg (by simp; omega),
          List.drop_append_of_le_length (by omega : 4 + W + u ≤ b.length),
          List.take_append_of_le_length (by simp; omega)]

theorem outpoint_cases (b : List Nat) :
    (∃ p n, OutPoint.from_bytes b = .Ok p n) ∨
      OutPoint.from_bytes b = .Err .InsufficientBytes := by
  unfold OutPoint.from_bytes
  split_ifs
  · right; rfl
  · left; exact ⟨_, _, rfl⟩

theorem script_cases (b : List Nat) :
    (∃ s n, Script.from_bytes b = .Ok s n) ∨
      Script.from_bytes b = .Err .InsufficientBytes ∨
      Script.from_bytes b = .Panic := by
  unfold Script.from_bytes
  rcases cs_cases b with ⟨c, n, h⟩ | h
  · rw [h]
    dsimp only
    split_ifs
    · right; right; rfl
    · right; left; rfl
    · left; exact ⟨_, _, rfl⟩
  · rw [h]; right; left; rfl

theorem input_cases (b : List Nat) :
    (∃ i n, TransactionInput.from_bytes b = .Ok i n) ∨
      TransactionInput.from_bytes b = .Err .InsufficientBytes ∨
      TransactionInput.from_bytes b = .Panic := by
  unfold TransactionInput.from_bytes
  rcases outpoint_cases b with ⟨p, k, h⟩ | h
  · rw [h]
    dsimp only
    rcases script_cases (b.drop k) with ⟨sc, m, h2⟩ | h2 | h2 <;> rw [h2] <;> dsimp only
    · split_ifs
      · right; left; rfl
      · left; exact ⟨_, _, rfl⟩
    · right; left; rfl
    · right; right; rfl
  · rw [h]; right; left; rfl

theorem inputs_cases (cnt : Nat) (b : List Nat) :
    (∃ l u, decodeInputs cnt b = .Ok l u) ∨
      decodeInputs cnt b = .Err .InsufficientBytes ∨
      decodeInputs cnt b = .Panic := by
  induction cnt generalizing b with
  | zero => left; exact ⟨[], 0, rfl⟩
  | succ cnt ih =>
    simp only [decodeInputs]
    rcases input_cases b with ⟨i, k, h⟩ | h | h <;> rw [h] <;> dsimp only
    · rcases ih (b.drop k) with ⟨l, u, h2⟩ | h2 | h2 <;> rw [h2] <;> dsimp only
      · left; exact ⟨_, _, rfl⟩
      · right; left; rfl
      · right; right; rfl
    · right; left; rfl
    · right; right; rfl

theorem tx_cases (b : List Nat) :
    (∃ t n, BitcoinTransaction.from_bytes b = .Ok t n) ∨
      BitcoinTransaction.from_bytes b = .Err .InsufficientBytes ∨
      BitcoinTransaction.from_bytes b = .Panic := by
  unfold BitcoinTransaction.from_bytes
  split_ifs with h4
  · right; left; rfl
  · dsimp only
    rcases cs_cases (b.drop 4) with ⟨c, W, h⟩ | h <;> rw [h] <;> dsimp only
    · rcases inputs_cases c.value (b.drop (4 + W)) with ⟨l, u, h2⟩ | h2 | h2 <;>
        rw [h2] <;> dsimp only
      · split_ifs
        · right; left; rfl
        · left; exact ⟨_, _, rfl⟩
      · right; left; rfl
      · right; right; rfl
    · right; left; rfl

theorem cs_not_invalid (b : List Nat) :
    (CompactSize.from_bytes b).isInvalidFormat = false := by
  rcases cs_cases b with ⟨c, n, h⟩ | h <;> rw [h] <;> rfl

theorem outpoint_not_invalid (b : List Nat) :
    (OutPoint.from_bytes b).isInvalidFormat = false := by
  rcases outpoint_cases b with ⟨p, n, h⟩ | h <;> rw [h] <;> rfl

theorem script_not_invalid (b : List Nat) :
    (Script.from_bytes b).isInvalidFormat = false := by
  rcases script_cases b with ⟨s, n, h⟩ | h | h <;> rw [h] <;> rfl

theorem input_not_invalid (b : List Nat) :
    (TransactionInput.from_bytes b).isInvalidFormat = false := by
  rcases input_cases b with ⟨i, n, h⟩ | h | h <;> rw [h] <;> rfl

theorem tx_not_invalid (b : List Nat) :
    (BitcoinTransaction.from_bytes b).isInvalidFormat = false := by
  rcases tx_cases b with ⟨t, n, h⟩ | h | h <;> rw [h] <;> rfl

theorem tx_ok_inversion {b : List Nat} {t : BitcoinTransaction} {n : Nat}
    (h : BitcoinTransaction.from_bytes b = .Ok t n) :
    ∃ c W u, CompactSize.from_bytes (b.drop 4) = .Ok c W ∧
      decodeInputs c.value (b.drop (4 + W)) = .Ok t.inputs u ∧
      t.inputs.length = c.value ∧ n = 4 + W + u + 4 := by
  unfold BitcoinTransaction.from_bytes at h
  split_ifs at h with h4
  dsimp only at h
  rcases cs_cases (b.drop 4) with ⟨c, W, hcs⟩ | hcs
  · rw [hcs] at h
    dsimp only at h
    rcases inputs_cases c.value (b.drop (4 + W)) with ⟨l, u, hdi⟩ | hdi | hdi
    · rw [hdi] at h
      dsimp only at h
      split_ifs at h with hfin
      cases h
      refine ⟨c, W, u, hcs, ?_, ?_, rfl⟩
      · simpa using hdi
      · simpa using (inputs_decode_ext (s := []) hdi).2.1
    · rw [hdi] at h; dsimp only at h; cases h
    · rw [hdi] at h; dsimp only at h; cases h
  · rw [hcs] at h; dsimp only at h; cases h

theorem tx_err_prop {b : List Nat} {c : CompactSize} {W : Nat} {e : BitcoinError}
    (h4 : ¬b.length < 4) (hcs : CompactSize.from_bytes (b.drop 4) = .Ok c W)
    (hdi : decodeInputs c.value (b.drop (4 + W)) = .Err e) :
    BitcoinTransaction.from_bytes b = .Err e := by
  unfold BitcoinTransaction.from_bytes
  rw [if_neg h4]
  dsimp only
  rw [hcs]
  dsimp only
  rw [hdi]

theorem toLE_succ_ne_nil (w v : Nat) : toLE (w + 1) v ≠ [] := by simp [toLE]

theorem cs_trunc (v : Nat) (_hv : v < 2 ^ 64) :
    CompactSize.from_bytes ((CompactSize.to_bytes ⟨v⟩).dropLast) =
      .Err .InsufficientBytes := by
  unfold CompactSize.to_bytes
  dsimp only
  split_ifs <;> rfl

theorem op_trunc (p : OutPoint) (h : wfOutPoint p) :
    OutPoint.from_bytes (p.to_bytes.dropLast) = .Err .InsufficientBytes := by
  unfold OutPoint.from_bytes
  rw [if_pos (by simp [List.length_dropLast, outpoint_to_bytes_length p h.1.1])]

theorem script_trunc (s : Script) (h : wfScript s) :
    Script.from_bytes (s.to_bytes.dropLast) = .Err .InsufficientBytes := by
  obtain ⟨hlen, -⟩ := h
  by_cases hb : s.bytes = []
  · have hsb : s.to_bytes = [0] := by
      simp [Script.to_bytes, hb, CompactSize.new, CompactSize.to_bytes]
    rw [hsb]
    rfl
  · have h63 : (2 : Nat) ^ 63 - 1 < 2 ^ 64 := by norm_num
    have hq : (9 : Nat) + (2 ^ 63 - 1) < 2 ^ 64 := by norm_num
    have hW := cs_to_bytes_length_le s.bytes.length
    have hpos : 0 < s.bytes.length := List.length_pos.mpr hb
    unfold Script.to_bytes CompactSize.new
    rw [List.dropLast_append_of_ne_nil _ hb]
    unfold Script.from_bytes
    rw [cs_encode_decode s.bytes.length (by omega) _]
    dsimp only
    rw [if_neg (by omega), if_pos (by simp [List.length_dropLast]; omega)]

theorem input_trunc (i : TransactionInput) (h : wfInput i) :
    TransactionInput.from_bytes (i.to_bytes.dropLast) = .Err .InsufficientBytes := by
  obtain ⟨hop, hsc, hseq⟩ := h
  have hoplen : i.previous_output.to_bytes.length = 36 :=
    outpoint_to_bytes_length _ hop.1.1
  unfold TransactionInput.to_bytes
  rw [List.dropLast_append_of_ne_nil _ (toLE_succ_ne_nil 3 i.sequence),
    List.append_assoc]
  unfold TransactionInput.from_bytes
  rw [outpoint_encode_decode _ hop _]
  dsimp only
  rw [List.drop_left' hoplen]
  rw [script_encode_decode _ hsc _]
  dsimp only
  rw [if_pos (by simp [hoplen, toLE_length, List.length_dropLast]; omega)]

theorem tx_trunc (t : BitcoinTransaction) (h : wfTx t) :
    BitcoinTransaction.from_bytes (t.to_bytes.dropLast) = .Err .InsufficientBytes := by
  obtain ⟨hver, hlock, hcnt, hins⟩ := h
  have q64 : (2 : Nat) ^ 64 = 18446744073709551616 := by norm_num
  have h63 : (2 : Nat) ^ 63 - 1 < 2 ^ 64 := by norm_num
  have hcnt64 : t.inputs.length < 2 ^ 64 := by omega
  unfold BitcoinTransaction.to_bytes CompactSize.new
  rw [List.dropLast_append_of_ne_nil _ (toLE_succ_ne_nil 3 t.lock_time),
    List.append_assoc, List.append_assoc]
  unfold BitcoinTransaction.from_bytes
  rw [if_neg (by simp [toLE_length])]
  rw [toLE_append_drop, cs_encode_decode t.inputs.length hcnt64 _]
  dsimp only
  rw [append_drop_index (toLE_length 4 t.version), List.drop_left]
  rw [inputs_encode_decode t.inputs hins _]
  dsimp only
  rw [if_pos (by simp [toLE_length, List.length_dropLast]; omega)]

theorem hexVal_hexDigit {d : Nat} (h : d < 16) : hexVal (hexDigit d) = some d := by
  interval_cases d <;> decide

theorem hexDecode_flatMap (bs : List Nat) (h : ∀ b ∈ bs, b < 256) :
    hexDecode (bs.flatMap byteToHexChars) = some bs := by
  induction bs with
  | nil => rfl
  | cons b tl ih =>
    have hb : b < 256 := h b (by simp)
    have hbv : 16 * (b / 16) + b % 16 = b := by omega
    simp only [List.flatMap_cons, byteToHexChars]
    show hexDecode
        (hexDigit (b / 16) :: hexDigit (b % 16) :: tl.flatMap byteToHexChars) = _
    simp only [hexDecode]
    rw [hexVal_hexDigit (by omega), hexVal_hexDigit (by omega),
      ih (fun x hx => h x (by simp [hx]))]
    dsimp only
    rw [hbv]

theorem flatMap_pair_length (bs : List Nat) :
    (bs.flatMap byteToHexChars).length = 2 * bs.length := by
  induction bs with
  | nil => rfl
  | cons b tl ih =>
    simp only [List.flatMap_cons, byteToHexChars, List.length_append,
      List.length_cons, ih]
    simp
    omega

/-- C1: for every `BitcoinTransaction` value `t` satisfying the Rust type
invariants (0 or more inputs), `BitcoinTransaction::from_bytes(t.to_bytes())`
returns `Ok((t, n))` where `n` is the length of `t.to_bytes()`. -/
theorem C1_tx_roundtrip (t : BitcoinTransaction) (h : wfTx t) :
    BitcoinTransaction.from_bytes t.to_bytes = .Ok t t.to_bytes.length := by
  have := tx_encode_decode t h []
  rwa [List.append_nil] at this

theorem C1_tx_roundtrip_witness :
    wfTx ⟨1, [⟨⟨⟨List.replicate 32 0⟩, 7⟩, ⟨[171]⟩, 4294967295⟩], 0⟩ ∧
      BitcoinTransaction.from_bytes
          (BitcoinTransaction.to_bytes
            ⟨1, [⟨⟨⟨List.replicate 32 0⟩, 7⟩, ⟨[171]⟩, 4294967295⟩], 0⟩) =
        .Ok ⟨1, [⟨⟨⟨List.replicate 32 0⟩, 7⟩, ⟨[171]⟩, 4294967295⟩], 0⟩
          (BitcoinTransaction.to_bytes
            ⟨1, [⟨⟨⟨List.replicate 32 0⟩, 7⟩, ⟨[171]⟩, 4294967295⟩], 0⟩).length :=
  ⟨by decide, C1_tx_roundtrip _ (by decide)⟩

/-- C2: the claim says `Script::from_bytes` returns `Err(InsufficientBytes)`
whenever the declared length exceeds the remaining buffer and never panics.
The second conjunct exhibits the code bug: on the 9-byte buffer
`FF FF FF FF FF FF FF FF FF` (declared length `2^64 - 1`) the end-index
computation overflows `usize` and the Rust code panics instead of returning
an error.  The first conjunct shows the non-overflowing length-mismatch case
does return `Err(InsufficientBytes)` as claimed. -/
theorem C2_script_length_check :
    Script.from_bytes [2, 171] = .Err .InsufficientBytes ∧
      Script.from_bytes (List.replicate 9 255) = .Panic := by decide

/-- C3: whenever `BitcoinTransaction::from_bytes` succeeds, the inputs list
has exactly the declared VarLen count of elements and the inputs decode in
sequence, each starting where the previous ended (`DecodesFrom`); and when
the input loop fails, the whole call returns that same error (no partial
transaction). -/
theorem C3_count_sequence_propagation :
    (∀ b t n, BitcoinTransaction.from_bytes b = .Ok t n →
      ∃ c W u, CompactSize.from_bytes (b.drop 4) = .Ok c W ∧
        decodeInputs c.value (b.drop (4 + W)) = .Ok t.inputs u ∧
        t.inputs.length = c.value ∧
        DecodesFrom (b.drop (4 + W)) t.inputs u ∧
        n = 4 + W + u + 4) ∧
    (∀ b c W e, ¬b.length < 4 → CompactSize.from_bytes (b.drop 4) = .Ok c W →
      decodeInputs c.value (b.drop (4 + W)) = .Err e →
      BitcoinTransaction.from_bytes b = .Err e) ∧
    (∀ b e n, TransactionInput.from_bytes b = .Err e → 0 < n →
      decodeInputs n b = .Err e) := by
  refine ⟨?_, ?_, ?_⟩
  · intro b t n h
    obtain ⟨c, W, u, hcs, hdi, hlen, hn⟩ := tx_ok_inversion h
    exact ⟨c, W, u, hcs, hdi, hlen, inputs_decodes_from hdi, hn⟩
  · intro b c W e h4 hcs hdi
    exact tx_err_prop h4 hcs hdi
  · intro b e n h hn
    exact inputs_err_head h hn

theorem C3_count_sequence_propagation_witness :
    decodeInputs 1 [] = .Err .InsufficientBytes :=
  C3_count_sequence_propagation.2.2 [] .InsufficientBytes 1 (by decide) (by decide)

/-- C4: each CompactSize boundary value (0, 252, 253, 65535, 65536,
4294967295, 4294967296, u64::MAX) encodes to the exact byte string dictated
by the prefix table and decodes back to the same value with consumed equal
to the encoding's length. -/
theorem C4_varint_boundaries :
    CompactSize.to_bytes ⟨0⟩ = [0] ∧
    CompactSize.to_bytes ⟨252⟩ = [252] ∧
    CompactSize.to_bytes ⟨253⟩ = [253, 253, 0] ∧
    CompactSize.to_bytes ⟨65535⟩ = [253, 255, 255] ∧
    CompactSize.to_bytes ⟨65536⟩ = [254, 0, 0, 1, 0] ∧
    CompactSize.to_bytes ⟨4294967295⟩ = [254, 255, 255, 255, 255] ∧
    CompactSize.to_bytes ⟨4294967296⟩ = [255, 0, 0, 0, 0, 1, 0, 0, 0] ∧
    CompactSize.to_bytes ⟨18446744073709551615⟩ =
      [255, 255, 255, 255, 255, 255, 255, 255, 255] ∧
    CompactSize.from_bytes (CompactSize.to_bytes ⟨0⟩) = .Ok ⟨0⟩ 1 ∧
    CompactSize.from_bytes (CompactSize.to_bytes ⟨252⟩) = .Ok ⟨252⟩ 1 ∧
    CompactSize.from_bytes (CompactSize.to_bytes ⟨253⟩) = .Ok ⟨253⟩ 3 ∧
    CompactSize.from_bytes (CompactSize.to_bytes ⟨65535⟩) = .Ok ⟨65535⟩ 3 ∧
    CompactSize.from_bytes (CompactSize.to_bytes ⟨65536⟩) = .Ok ⟨65536⟩ 5 ∧
    CompactSize.from_bytes (CompactSize.to_bytes ⟨4294967295⟩) =
      .Ok ⟨4294967295⟩ 5 ∧
    CompactSize.from_bytes (CompactSize.to_bytes ⟨4294967296⟩) =
      .Ok ⟨4294967296⟩ 9 ∧
    CompactSize.from_bytes (CompactSize.to_bytes ⟨18446744073709551615⟩) =
      .Ok ⟨18446744073709551615⟩ 9 := by decide

/-- C5: the decoder accepts non-canonical (oversized) encodings: the
concrete bytes `FD 05 00` decode to 5 with consumed 3, and in general every
prefix class decodes any value carried in it (even one that fits a shorter
class), never rejecting an input for not being minimal. -/
theorem C5_varint_non_canonical :
    CompactSize.from_bytes [253, 5, 0] = .Ok ⟨5⟩ 3 ∧
    (∀ v : Nat, v < 2 ^ 16 → ∀ rest : List Nat,
      CompactSize.from_bytes (253 :: toLE 2 v ++ rest) = .Ok ⟨v⟩ 3) ∧
    (∀ v : Nat, v < 2 ^ 32 → ∀ rest : List Nat,
      CompactSize.from_bytes (254 :: toLE 4 v ++ rest) = .Ok ⟨v⟩ 5) ∧
    (∀ v : Nat, v < 2 ^ 64 → ∀ rest : List Nat,
      CompactSize.from_bytes (255 :: toLE 8 v ++ rest) = .Ok ⟨v⟩ 9) := by
  have p2 : (256 : Nat) ^ 2 = 2 ^ 16 := by norm_num
  have p4 : (256 : Nat) ^ 4 = 2 ^ 32 := by norm_num
  have p8 : (256 : Nat) ^ 8 = 2 ^ 64 := by norm_num
  refine ⟨by decide, ?_, ?_, ?_⟩
  · intro v hv rest
    rw [List.cons_append]
    simp only [CompactSize.from_bytes]
    rw [if_pos trivial, if_neg (by simp [toLE_length])]
    have hdrop : List.drop 1 (253 :: (toLE 2 v ++ rest)) = toLE 2 v ++ rest := rfl
    rw [hdrop, toLE_append_take, fromLE_toLE_of_lt (by omega)]
    rfl
  · intro v hv rest
    rw [List.cons_append]
    simp only [CompactSize.from_bytes]
    rw [if_pos trivial, if_neg (by simp [toLE_length])]
    have hdrop : List.drop 1 (254 :: (toLE 4 v ++ rest)) = toLE 4 v ++ rest := rfl
    rw [hdrop, toLE_append_take, fromLE_toLE_of_lt (by omega)]
    rfl
  · intro v hv rest
    rw [List.cons_append]
    simp only [CompactSize.from_bytes]
    rw [if_pos trivial, if_neg (by simp [toLE_length])]
    have hdrop : List.drop 1 (255 :: (toLE 8 v ++ rest)) = toLE 8 v ++ rest := rfl
    rw [hdrop, toLE_append_take, fromLE_toLE_of_lt (by omega)]
    rfl

theorem C5_varint_non_canonical_witness :
    CompactSize.from_bytes (253 :: toLE 2 5 ++ []) = .Ok ⟨5⟩ 3 :=
  C5_varint_non_canonical.2.1 5 (by decide) []

/-- C6: every component decoder rejects the empty buffer with
`Err(InsufficientBytes)`, and every valid encoding truncated by one byte
(`dropLast`) is rejected with `Err(InsufficientBytes)`. -/
theorem C6_truncation :
    CompactSize.from_bytes [] = .Err .InsufficientBytes ∧
    OutPoint.from_bytes [] = .Err .InsufficientBytes ∧
    Script.from_bytes [] = .Err .InsufficientBytes ∧
    TransactionInput.from_bytes [] = .Err .InsufficientBytes ∧
    BitcoinTransaction.from_bytes [] = .Err .InsufficientBytes ∧
    (∀ v : Nat, v < 2 ^ 64 →
      CompactSize.from_bytes ((CompactSize.to_bytes ⟨v⟩).dropLast) =
        .Err .InsufficientBytes) ∧
    (∀ p : OutPoint, wfOutPoint p →
      OutPoint.from_bytes (p.to_bytes.dropLast) = .Err .InsufficientBytes) ∧
    (∀ s : Script, wfScript s →
      Script.from_bytes (s.to_bytes.dropLast) = .Err .InsufficientBytes) ∧
    (∀ i : TransactionInput, wfInput i →
      TransactionInput.from_bytes (i.to_bytes.dropLast) = .Err .InsufficientBytes) ∧
    (∀ t : BitcoinTransaction, wfTx t →
      BitcoinTransaction.from_bytes (t.to_bytes.dropLast) =
        .Err .InsufficientBytes) :=
  ⟨rfl, rfl, rfl, rfl, rfl, cs_trunc, op_trunc, script_trunc, input_trunc, tx_trunc⟩

theorem C6_truncation_witness :
    CompactSize.from_bytes ((CompactSize.to_bytes ⟨300⟩).dropLast) =
      .Err .InsufficientBytes :=
  C6_truncation.2.2.2.2.2.1 300 (by decide)

/-- C7: the claim says every purely binary decode path returns either `Ok`
or `Err(InsufficientBytes)` and never `Err(InvalidFormat)`.  The
never-`InvalidFormat` half holds for all five decoders (first five
conjuncts).  The totality half is refuted by the code bug shown in the final
conjunct: a 50-byte transaction whose single input carries the overflowing
script-length prefix makes the Rust code panic, returning neither `Ok` nor
`Err`. -/
theorem C7_no_invalid_format :
    (∀ b, (CompactSize.from_bytes b).isInvalidFormat = false) ∧
    (∀ b, (OutPoint.from_bytes b).isInvalidFormat = false) ∧
    (∀ b, (Script.from_bytes b).isInvalidFormat = false) ∧
    (∀ b, (TransactionInput.from_bytes b).isInvalidFormat = false) ∧
    (∀ b, (BitcoinTransaction.from_bytes b).isInvalidFormat = false) ∧
    BitcoinTransaction.from_bytes
        ([0, 0, 0, 0, 1] ++ List.replicate 36 0 ++ List.replicate 9 255) =
      .Panic :=
  ⟨cs_not_invalid, outpoint_not_invalid, script_not_invalid, input_not_invalid,
    tx_not_invalid, by decide⟩

/-- C8: `BitcoinTransaction{version: 1, inputs: [], lock_time: 0}` encodes
to exactly `01 00 00 00 00 00 00 00 00` and that 9-byte sequence decodes
back to the same structure with consumed = 9. -/
theorem C8_empty_tx_concrete :
    BitcoinTransaction.to_bytes ⟨1, [], 0⟩ = [1, 0, 0, 0, 0, 0, 0, 0, 0] ∧
      BitcoinTransaction.from_bytes [1, 0, 0, 0, 0, 0, 0, 0, 0] =
        .Ok ⟨1, [], 0⟩ 9 := by decide

/-- C9: a well-formed `Txid` serializes to 64 lowercase hex characters
(byte 0 first) and deserializing that string reproduces the array; a string
that is not valid hex fails, and a hex string that does not decode to
exactly 32 bytes (such as one of 62 characters) fails with a length error. -/
theorem C9_txid_textual :
    (∀ t : Txid, wfTxid t →
      (Txid.serialize t).length = 64 ∧
        Txid.deserialize (Txid.serialize t) = .ok t) ∧
    (∀ b : Nat, ∀ rest : List Nat,
      Txid.serialize ⟨b :: rest⟩ = byteToHexChars b ++ Txid.serialize ⟨rest⟩) ∧
    (∀ s : List Char, hexDecode s = none →
      Txid.deserialize s = .error .InvalidHex) ∧
    (∀ s : List Char, ∀ bs : List Nat, hexDecode s = some bs → bs.length ≠ 32 →
      Txid.deserialize s = .error .InvalidLength) ∧
    Txid.deserialize (List.replicate 62 '0') = .error .InvalidLength ∧
    Txid.deserialize (List.replicate 64 'z') = .error .InvalidHex := by
  refine ⟨?_, ?_, ?_, ?_, by rfl, by rfl⟩
  · intro t ht
    obtain ⟨h32, hb⟩ := ht
    constructor
    · unfold Txid.serialize
      rw [flatMap_pair_length, h32]
    · unfold Txid.serialize Txid.deserialize
      rw [hexDecode_flatMap _ hb]
      dsimp only
      rw [if_neg (by simp [h32])]
  · intro b rest
    simp [Txid.serialize, List.flatMap_cons]
  · intro s h
    unfold Txid.deserialize
    rw [h]
  · intro s bs h hne
    unfold Txid.deserialize
    rw [h]
    dsimp only
    rw [if_pos hne]

theorem C9_txid_textual_witness :
    (Txid.serialize ⟨List.replicate 32 0⟩).length = 64 ∧
      Txid.deserialize (Txid.serialize ⟨List.replicate 32 0⟩) =
        .ok ⟨List.replicate 32 0⟩ :=
  C9_txid_textual.1 ⟨List.replicate 32 0⟩ (by decide)

/-- C10: each decoder depends only on the prefix it consumes: a successful
decode consumes at most the buffer, and appending any suffix leaves the
result (value and consumed count) unchanged. -/
theorem C10_decode_prefix_ext :
    (∀ b s : List Nat, ∀ c n, CompactSize.from_bytes b = .Ok c n →
      n ≤ b.length ∧ CompactSize.from_bytes (b ++ s) = .Ok c n) ∧
    (∀ b s : List Nat, ∀ p n, OutPoint.from_bytes b = .Ok p n →
      n ≤ b.length ∧ OutPoint.from_bytes (b ++ s) = .Ok p n) ∧
    (∀ b s : List Nat, ∀ sc n, Script.from_bytes b = .Ok sc n →
      n ≤ b.length ∧ Script.from_bytes (b ++ s) = .Ok sc n) ∧
    (∀ b s : List Nat, ∀ i n, TransactionInput.from_bytes b = .Ok i n →
      n ≤ b.length ∧ TransactionInput.from_bytes (b ++ s) = .Ok i n) ∧
    (∀ b s : List Nat, ∀ t n, BitcoinTransaction.from_bytes b = .Ok t n →
      n ≤ b.length ∧ BitcoinTransaction.from_bytes (b ++ s) = .Ok t n) :=
  ⟨fun _ _ _ _ h => cs_decode_ext h, fun _ _ _ _ h => outpoint_decode_ext h,
    fun _ _ _ _ h => script_decode_ext h, fun _ _ _ _ h => input_decode_ext h,
    fun _ _ _ _ h => tx_decode_ext h⟩

theorem C10_decode_prefix_ext_witness :
    1 ≤ ([5] : List Nat).length ∧
      CompactSize.from_bytes ([5] ++ [7]) = .Ok ⟨5⟩ 1 :=
  C10_decode_prefix_ext.1 [5] [7] ⟨5⟩ 1 (by decide)
